import Mathlib

set_option maxRecDepth 8000
set_option maxHeartbeats 1000000

/-!
Verification of the query-safety core of an MCP PostgreSQL server.

The definitions below are a shallow embedding of the TypeScript sources:
`src/security.ts` (statement normalizer, safety gate, query limits),
`src/database.ts` (connection lifecycle, bounded executor) and the query
tool handler (`addPaginationToQuery`, `handleQueryTool`).  JavaScript
regular-expression semantics are modelled by explicit character scanners;
every definition is executable so that concrete inputs can be settled by
`decide`.
-/

namespace MPS

/-- JS regex character set `\s` (also the set removed by `String.trim`). -/
def isJsWS (c : Char) : Bool :=
  c = ' ' || c = '\t' || c = '\n' || c = '\r' || c = '\x0b' || c = '\x0c' ||
  c = '\u00a0' || c = '\u1680' || ('\u2000' ≤ c && c ≤ '\u200a') ||
  c = '\u2028' || c = '\u2029' || c = '\u202f' || c = '\u205f' ||
  c = '\u3000' || c = '\ufeff'

/-- JS regex word character `\w` (`[A-Za-z0-9_]`), used by `\b` boundaries. -/
def isWordChar (c : Char) : Bool :=
  c.isAlphanum || c = '_'

/-- Scanner mode while removing `--` line comments. -/
inductive LineMode where
  | text
  | comment
deriving DecidableEq

/-- Line-comment removal of `normalizeQuery` (security.ts line 35, the
global JS pattern dash-dash then `[^\n\r]*`, replaced by a space): every
`--` comment up to (excluding) the next CR/LF becomes a single space; the
line break itself is kept. -/
def rlcGo : LineMode → List Char → List Char
  | _, [] => []
  | .text, '-' :: '-' :: rest => ' ' :: rlcGo .comment rest
  | .text, c :: rest => c :: rlcGo .text rest
  | .comment, c :: rest =>
      if c = '\n' ∨ c = '\r' then c :: rlcGo .text rest
      else rlcGo .comment rest

/-- Line-comment removal pass of the normalizer. -/
def removeLineComments (l : List Char) : List Char :=
  rlcGo .text l

/-- Whether a `*/` close marker occurs anywhere in the input: exactly when
the lazy regex `\/\*[\s\S]*?\*\//` can complete a match started just
before the input. -/
def hasCloseB : List Char → Bool
  | [] => false
  | '*' :: '/' :: _ => true
  | _ :: rest => hasCloseB rest

/-- Scanner mode while removing `/* ... */` block comments. -/
inductive BlockMode where
  | text
  | comment
deriving DecidableEq

/-- `replace(/\/\*[\s\S]*?\*\//g, ' ')` (security.ts line 38): each block
comment, closed at the first following `*/`, becomes one space; a `/*`
with no later `*/` never matches and is left as ordinary text. -/
def rbcGo : BlockMode → List Char → List Char
  | _, [] => []
  | .text, '/' :: '*' :: rest =>
      if hasCloseB rest then ' ' :: rbcGo .comment rest
      else '/' :: '*' :: rest
  | .text, c :: rest => c :: rbcGo .text rest
  | .comment, '*' :: '/' :: rest => rbcGo .text rest
  | .comment, _ :: rest => rbcGo .comment rest

/-- Block-comment removal pass of the normalizer. -/
def removeBlockComments (l : List Char) : List Char :=
  rbcGo .text l

/-- `replace(/\s+/g, ' ')` (security.ts line 41): each maximal whitespace
run becomes a single space.  The boolean records whether the scanner is
inside a run whose space was already emitted. -/
def cwsGo : Bool → List Char → List Char
  | _, [] => []
  | inRun, c :: rest =>
      if isJsWS c then
        if inRun then cwsGo true rest else ' ' :: cwsGo true rest
      else c :: cwsGo false rest

/-- Whitespace-collapsing pass of the normalizer. -/
def collapseWS (l : List Char) : List Char :=
  cwsGo false l

/-- Leading-whitespace strip of `String.trim`. -/
def trimLeftWS (l : List Char) : List Char :=
  l.dropWhile isJsWS

/-- Trailing-whitespace strip of `String.trim`. -/
def trimRightWS (l : List Char) : List Char :=
  (l.reverse.dropWhile isJsWS).reverse

/-- `String.trim` (security.ts line 44). -/
def trimWS (l : List Char) : List Char :=
  trimRightWS (trimLeftWS l)

/-- The character-level pipeline of `normalizeQuery`. -/
def normalizeChars (l : List Char) : List Char :=
  trimWS (collapseWS (removeBlockComments (removeLineComments l)))

/-- `normalizeQuery` (security.ts lines 31-47): remove line comments, then
block comments, collapse whitespace runs to single spaces, and trim. -/
def normalizeQuery (s : String) : String :=
  ⟨normalizeChars s.data⟩

/-- Outcome record of the validators (`ValidationResult` in security.ts). -/
structure ValidationResult where
  isValid : Bool
  error : Option String
deriving DecidableEq

/-- `BLOCKED_KEYWORDS` (security.ts lines 8-12). -/
def BLOCKED_KEYWORDS : List String :=
  ["INSERT", "UPDATE", "DELETE", "DROP", "ALTER", "CREATE",
   "TRUNCATE", "REPLACE", "MERGE", "GRANT", "REVOKE",
   "EXEC", "EXECUTE", "CALL", "COPY", "IMPORT"]

/-- Case-insensitive literal match (JS `i` flag): consume the uppercase
pattern from the front of the input and return the remainder. -/
def matchCI : List Char → List Char → Option (List Char)
  | [], l => some l
  | _ :: _, [] => none
  | k :: ks, c :: rest => if c.toUpper = k then matchCI ks rest else none

/-- Trailing `\b` after a keyword made of word characters: the remainder
must be empty or start with a non-word character. -/
def wordBoundaryAfter (rem : List Char) : Bool :=
  match rem.head? with
  | some d => !isWordChar d
  | none => true

/-- Whether the regex `\b<kw>\b` (with `i`) matches at the very front. -/
def kwHereWB (kw : List Char) (l : List Char) : Bool :=
  match matchCI kw l with
  | some rem => wordBoundaryAfter rem
  | none => false

/-- Scan for `\b<kw>\b` (with `i`) anywhere; `prev` records whether the
previous character was a word character, so the leading `\b` holds exactly
when `prev` is false (every blocked keyword starts with a letter). -/
def scanWordCI (kw : List Char) : Bool → List Char → Bool
  | _, [] => false
  | prev, c :: rest =>
      (!prev && kwHereWB kw (c :: rest)) || scanWordCI kw (isWordChar c) rest

/-- The word-boundary keyword test of security.ts line 90 (a RegExp built
from backslash-b, the keyword, backslash-b, with the `i` flag): the
keyword occurs as a whole word, case-insensitively. -/
def containsWholeWordCI (kw : String) (s : String) : Bool :=
  scanWordCI kw.data false s.data

/-- The alternation of the first blocked pattern (security.ts line 15). -/
def SEMI_KWS : List String :=
  ["INSERT", "UPDATE", "DELETE", "DROP", "ALTER", "CREATE", "TRUNCATE"]

/-- After a semicolon: skip `\s*` and require one of the alternatives. -/
def afterSemi (l : List Char) : Bool :=
  SEMI_KWS.any (fun kw => (matchCI kw.data (l.dropWhile isJsWS)).isSome)

/-- First blocked pattern: a `;` followed by optional whitespace and a
write keyword, anywhere in the input (security.ts line 15). -/
def scanSemiPattern : List Char → Bool
  | [] => false
  | c :: rest => (c = ';' && afterSemi rest) || scanSemiPattern rest

/-- Whether `<a>\s+<b>` (with `i`) matches at the very front. -/
def kwWsKwHere (a b : List Char) (l : List Char) : Bool :=
  match matchCI a l with
  | some rem =>
      (rem.head?.any isJsWS) && (matchCI b (rem.dropWhile isJsWS)).isSome
  | none => false

/-- Scan for `<a>\s+<b>` (with `i`) anywhere in the input: the patterns
`INTO\s+OUTFILE` and `LOAD\s+DATA` (security.ts lines 16-17). -/
def scanKwWsKw (a b : List Char) : List Char → Bool
  | [] => false
  | c :: rest => kwWsKwHere a b (c :: rest) || scanKwWsKw a b rest

/-- `BLOCKED_PATTERNS.some(p => p.test(s))` over the three patterns of
security.ts lines 14-18. -/
def blockedPatternsTest (l : List Char) : Bool :=
  scanSemiPattern l ||
  scanKwWsKw "INTO".data "OUTFILE".data l ||
  scanKwWsKw "LOAD".data "DATA".data l

/-- `s.toUpperCase()` on the character list. -/
def upperChars (l : List Char) : List Char :=
  l.map Char.toUpper

/-- `String.startsWith` on character lists. -/
def startsWithChars : List Char → List Char → Bool
  | [], _ => true
  | _ :: _, [] => false
  | p :: ps, c :: rest => p = c && startsWithChars ps rest

/-- `validateReadOnlyQuery` (security.ts lines 54-119): reject empty
input, normalize, require a SELECT/WITH prefix, then scan the normalized
text for blocked keywords and blocked patterns, in that order. -/
def validateReadOnlyQuery (sql : String) : ValidationResult :=
  if sql = "" then
    ⟨false, some "SQL query must be a non-empty string"⟩
  else
    let n := normalizeQuery sql
    if n.length = 0 then
      ⟨false, some "SQL query cannot be empty"⟩
    else if !(startsWithChars "SELECT".data (upperChars n.data) ||
              startsWithChars "WITH".data (upperChars n.data)) then
      ⟨false, some "Only SELECT queries are allowed. Query must start with SELECT or WITH (for CTEs)"⟩
    else
      match BLOCKED_KEYWORDS.find? (fun kw => containsWholeWordCI kw n) with
      | some kw =>
          ⟨false, some ("Blocked keyword detected: " ++ kw ++
            ". Only read-only SELECT queries are allowed")⟩
      | none =>
          if blockedPatternsTest n.data then
            ⟨false, some "Query contains blocked pattern. Only read-only SELECT queries are allowed"⟩
          else
            ⟨true, none⟩

/-- `QUERY_LIMITS.MAX_ROWS` (security.ts line 126). -/
def MAX_ROWS : Nat := 1000

/-- `QUERY_LIMITS.TIMEOUT_MS` (security.ts line 129). -/
def TIMEOUT_MS : Nat := 30000

/-- `QUERY_LIMITS.MAX_QUERY_LENGTH` (security.ts line 132). -/
def MAX_QUERY_LENGTH : Nat := 10000

/-- `validateQueryLength` (security.ts lines 140-153): the raw,
pre-normalization text must not exceed `MAX_QUERY_LENGTH`. -/
def validateQueryLength (sql : String) : ValidationResult :=
  if sql.length > MAX_QUERY_LENGTH then
    ⟨false, some ("Query exceeds maximum length of " ++
      toString MAX_QUERY_LENGTH ++ " characters")⟩
  else
    ⟨true, none⟩

/-- Modelled from the spec: the two-argument `validateQuery` with the
insecure bypass.  The provided security.ts only contains the older
one-argument `validateQuery` (length check, then read-only check), while
its caller `handleQueryTool` passes `isInsecureMode()` as a second
argument; the insecure-aware body itself is missing from the sources.
Per the spec, the length check runs on the original text before
everything else, and `insecure == true` then skips the leading-verb,
keyword and pattern checks entirely, returning Allowed. -/
def validateQuery (sql : String) (insecure : Bool) : ValidationResult :=
  let lengthResult := validateQueryLength sql
  if !lengthResult.isValid then lengthResult
  else if insecure then ⟨true, none⟩
  else
    let readOnlyResult := validateReadOnlyQuery sql
    if !readOnlyResult.isValid then readOnlyResult
    else ⟨true, none⟩

/-- After a keyword: require `\s+` then `\d+`, i.e. at least one
whitespace character and, after the whitespace run, a decimal digit. -/
def wsThenDigit (l : List Char) : Bool :=
  (l.head?.any isJsWS) && ((l.dropWhile isJsWS).head?.any Char.isDigit)

/-- Whether `<kw>\s+\d+` (with `i`) matches at the very front. -/
def kwNumHere (kw : List Char) (l : List Char) : Bool :=
  match matchCI kw l with
  | some rem => wsThenDigit rem
  | none => false

/-- Scan for the pattern backslash-b, keyword, `\s+\d+` (with `i`)
anywhere; `prev` records whether the previous character was a word
character, as in `scanWordCI`. -/
def scanKwNum (kw : List Char) : Bool → List Char → Bool
  | _, [] => false
  | prev, c :: rest =>
      (!prev && kwNumHere kw (c :: rest)) || scanKwNum kw (isWordChar c) rest

/-- The `hasLimit` / `hasOffset` regex tests of `addPaginationToQuery`
(query tool, lines 145-146): word boundary, the keyword, whitespace, then
a decimal number, case-insensitively. -/
def hasKwNum (kw : String) (l : List Char) : Bool :=
  scanKwNum kw.data false l

/-- `trimmedSql = sql.trim().replace(/;$/, ...)` with a single-character
replacementless strip (query tool, line 141): remove one trailing
semicolon, if present, after trimming. -/
def stripTrailingSemi (l : List Char) : List Char :=
  match l.reverse with
  | ';' :: r => r.reverse
  | _ => l

/-- The trimmed, semicolon-stripped statement every branch of
`addPaginationToQuery` works on. -/
def paginationBase (sql : String) : List Char :=
  stripTrailingSemi (trimWS sql.data)

/-- `addPaginationToQuery` (query tool, lines 140-164): if both a
`LIMIT <n>` and an `OFFSET <n>` are detected, return the trimmed
statement as-is; otherwise append a LIMIT clause when none was detected,
and an OFFSET clause when none was detected and the offset is positive. -/
def addPaginationToQuery (sql : String) (limit offset : Nat) : String :=
  let t := paginationBase sql
  let hasLimit := hasKwNum "LIMIT" t
  let hasOffset := hasKwNum "OFFSET" t
  if hasLimit && hasOffset then ⟨t⟩
  else
    let p1 := if !hasLimit then t ++ (" LIMIT " ++ toString limit).data else t
    let p2 :=
      if !hasOffset && decide (offset > 0) then
        p1 ++ (" OFFSET " ++ toString offset).data
      else p1
    ⟨p2⟩

/-- The success path of `executeQuery` (database.ts lines 205-228) as a
function of the row set the driver call delivered: past `MAX_ROWS` the
rows are truncated and a warning record with the original and the
truncated counts is emitted, otherwise the rows pass through unchanged
with no warning. -/
def executeQueryModel {α : Type} (driverRows : List α) :
    List α × Option (Nat × Nat) :=
  if driverRows.length > MAX_ROWS then
    (driverRows.take MAX_ROWS, some (driverRows.length, MAX_ROWS))
  else
    (driverRows, none)

/-- What the query tool hands back for a validated statement (query tool,
lines 211-232): the statement actually executed, the page of rows
returned to the caller, and the `hasMore` flag. -/
structure PaginatedOutcome (α : Type) where
  paginatedSql : String
  data : List α
  hasMore : Bool
deriving DecidableEq

/-- The post-validation slice of `handleQueryTool` (query tool, lines
211-232): paginate the statement with `limit + 1`, run it through the
bounded executor, then compute `hasMore` and slice the page. -/
def handleQueryPagination {α : Type} (sql : String) (limit offset : Nat)
    (driverRows : List α) : PaginatedOutcome α :=
  let paginatedSql := addPaginationToQuery sql (limit + 1) offset
  let results := (executeQueryModel driverRows).1
  let hasMore : Bool := decide (results.length > limit)
  let data := if hasMore then results.take limit else results
  ⟨paginatedSql, data, hasMore⟩

/-- The process-wide connection state of database.ts (lines 12-18),
restricted to the fields `waitForDatabase` reads: the pool handle, the
`isInitialized` flag, and whether the shared initialization promise was
ever created.  Pool handles are represented by numbers. -/
structure DbState where
  connectionPool : Option Nat
  isInitialized : Bool
  initPromiseCreated : Bool
deriving DecidableEq

/-- The state of a fresh process, before `initializeDatabase` ran. -/
def initialDbState : DbState :=
  ⟨none, false, false⟩

/-- How a call to `waitForDatabase` behaves, before any awaiting: it can
return the pool at once, fail at once with an error message, or suspend
on the shared initialization promise raced against the timeout. -/
inductive WaitOutcome where
  | immediateReturn (pool : Nat)
  | immediateFailure (message : String)
  | awaitsInitPromise
deriving DecidableEq

/-- `waitForDatabase` (database.ts lines 145-180), up to its first
suspension point: return the pool immediately when initialized, throw the
not-started error immediately when no initialization promise exists, and
otherwise await the promise raced against the timeout. -/
def waitForDatabase (s : DbState) : WaitOutcome :=
  match s.isInitialized, s.connectionPool with
  | true, some p => .immediateReturn p
  | _, _ =>
      if s.initPromiseCreated then .awaitsInitPromise
      else .immediateFailure
        "Database initialization not started. Call initializeDatabase() first"

/-- The successful path of `initializeDatabase` (database.ts lines
24-95) as a state transition: a no-op when already initialized, and
otherwise the initialization promise is created, the pool is opened and
`isInitialized` becomes true. -/
def initializeSucceed (s : DbState) (pool : Nat) : DbState :=
  if s.isInitialized then s
  else ⟨some pool, true, true⟩

/-- A 10001-character statement, used to exercise the length check. -/
def overlongQuery : String :=
  ⟨List.replicate 10001 'A'⟩

/-- Whether the first character is the given one. -/
def headIs (d : Char) (l : List Char) : Bool :=
  l.head?.any (fun c => c = d)

/-- No two adjacent dashes anywhere: on such input the line-comment pass
matches nothing. -/
def noDD : List Char → Bool
  | [] => true
  | c :: rest => !(c = '-' && headIs '-' rest) && noDD rest

/-- No comment opener followed by a close marker: on such input the
block-comment pass matches nothing. -/
def noBlock : List Char → Bool
  | [] => true
  | c :: rest => !(c = '/' && headIs '*' rest && hasCloseB rest.tail) && noBlock rest

/-- Every whitespace character is a plain space not followed by more
whitespace: on such input the collapsing pass changes nothing. -/
def onlySingleSpace : List Char → Bool
  | [] => true
  | c :: rest =>
      (!(isJsWS c) || (c = ' ' && !(rest.head?.any isJsWS))) && onlySingleSpace rest

/-- The first character, if any, is not whitespace. -/
def headNotWS (l : List Char) : Bool :=
  !(l.head?.any isJsWS)

example : normalizeQuery "SELECT    *   FROM\n\tusers  WHERE   id = 1" =
    "SELECT * FROM users WHERE id = 1" := by decide

example : normalizeQuery "SELECT * FROM users -- this is a comment" =
    "SELECT * FROM users" := by decide

example : normalizeQuery "SELECT /* comment */ * FROM users" =
    "SELECT * FROM users" := by decide

example : normalizeQuery "-- just a comment\n/* another comment */" = "" := by
  decide

example : normalizeQuery "SELECT * /* outer /* inner */ still outer */ FROM users" =
    "SELECT * still outer */ FROM users" := by decide

example : validateReadOnlyQuery "SELECT * FROM users" = ⟨true, none⟩ := by
  decide

example : (validateReadOnlyQuery "EXPLAIN SELECT * FROM users").isValid = false := by
  decide

example : validateReadOnlyQuery "DELETE FROM users WHERE id = 1" =
    ⟨false, some "Only SELECT queries are allowed. Query must start with SELECT or WITH (for CTEs)"⟩ := by
  decide

example : validateReadOnlyQuery "SELECT * FROM users; insert INTO users VALUES (1)" =
    ⟨false, some "Blocked keyword detected: INSERT. Only read-only SELECT queries are allowed"⟩ := by
  decide

example :
    (validateReadOnlyQuery "SELECT * FROM users INTO OUTFILE x").error =
      some "Query contains blocked pattern. Only read-only SELECT queries are allowed" := by
  decide

example : (validateReadOnlyQuery "SELECT created_at FROM users").isValid = true := by
  decide

example : (validateReadOnlyQuery "   \n\t  ").isValid = false := by decide

example : addPaginationToQuery "SELECT * FROM t" 10 0 = "SELECT * FROM t LIMIT 10" := by
  decide

example : addPaginationToQuery "SELECT * FROM t" 10 20 =
    "SELECT * FROM t LIMIT 10 OFFSET 20" := by decide

example : addPaginationToQuery "SELECT * FROM t LIMIT 5 OFFSET 0;" 10 20 =
    "SELECT * FROM t LIMIT 5 OFFSET 0" := by decide

/-- The executor returns `min driverRows.length MAX_ROWS` rows. -/
theorem executeQueryModel_fst_length {α : Type} (driverRows : List α) :
    (executeQueryModel driverRows).1.length = min driverRows.length MAX_ROWS := by
  unfold executeQueryModel
  split
  · next h =>
      simp only [List.length_take]
      omega
  · next h =>
      simp only [Nat.not_lt] at h
      simp only []
      omega

/-- C1: for every statement within the maximum query length, validating
with `insecure = true` returns Allowed, regardless of the leading verb,
of blocked keywords and of blocked patterns: the insecure flag skips all
content checks. -/
theorem validateQuery_insecure_allows (sql : String)
    (h : sql.length ≤ MAX_QUERY_LENGTH) :
    validateQuery sql true = ⟨true, none⟩ := by
  have hnot : ¬ sql.length > MAX_QUERY_LENGTH := by omega
  unfold validateQuery validateQueryLength
  simp [hnot]

/-- Witness for C1: a statement that starts with a blocked write verb is
still Allowed under the insecure flag. -/
theorem validateQuery_insecure_allows_witness :
    ("DROP TABLE users").length ≤ MAX_QUERY_LENGTH ∧
    validateQuery "DROP TABLE users" true = ⟨true, none⟩ :=
  ⟨by decide, validateQuery_insecure_allows "DROP TABLE users" (by decide)⟩

/-- C4: every statement longer than `MAX_QUERY_LENGTH` characters is
Blocked with the length reason, in both modes; the raw-length check runs
on the original text and precedes every other check. -/
theorem validateQuery_length_blocked (sql : String) (insecure : Bool)
    (h : sql.length > MAX_QUERY_LENGTH) :
    validateQuery sql insecure =
      ⟨false, some ("Query exceeds maximum length of " ++
        toString MAX_QUERY_LENGTH ++ " characters")⟩ := by
  unfold validateQuery validateQueryLength
  simp [h]

/-- Witness for C4: a 10001-character statement is Blocked for length. -/
theorem validateQuery_length_blocked_witness :
    overlongQuery.length > MAX_QUERY_LENGTH ∧
    validateQuery overlongQuery false =
      ⟨false, some "Query exceeds maximum length of 10000 characters"⟩ := by
  have hlen : overlongQuery.length > MAX_QUERY_LENGTH := by
    have h : overlongQuery.length = (List.replicate 10001 'A').length := rfl
    rw [h, List.length_replicate]
    norm_num [MAX_QUERY_LENGTH]
  exact ⟨hlen,
    (validateQuery_length_blocked overlongQuery false hlen).trans (by decide)⟩

/-- C6: `waitForDatabase` invoked before `initializeDatabase` was ever
called fails immediately with the distinct not-started error, without
reaching its await; invoked after a successful initialization it returns
the pool immediately. -/
theorem waitForDatabase_lifecycle :
    waitForDatabase initialDbState =
      .immediateFailure
        "Database initialization not started. Call initializeDatabase() first" ∧
    ∀ pool : Nat,
      waitForDatabase (initializeSucceed initialDbState pool) =
        .immediateReturn pool := by
  exact ⟨by decide, fun pool => rfl⟩

/-- C7: when the driver call succeeds with more than `MAX_ROWS` rows, the
executor returns exactly the first `MAX_ROWS` rows and emits a warning
carrying the original and the truncated counts; with at most `MAX_ROWS`
rows the result passes through unmodified and no warning is emitted. -/
theorem executeQuery_row_cap {α : Type} (driverRows : List α) :
    (driverRows.length > MAX_ROWS →
      executeQueryModel driverRows =
        (driverRows.take MAX_ROWS, some (driverRows.length, MAX_ROWS))) ∧
    (driverRows.length ≤ MAX_ROWS →
      executeQueryModel driverRows = (driverRows, none)) := by
  constructor
  · intro h
    simp [executeQueryModel, h]
  · intro h
    have hnot : ¬ driverRows.length > MAX_ROWS := by omega
    simp [executeQueryModel, hnot]

/-- Witness for C7: 1500 driver rows truncate to the first 1000 with a
warning of both counts; two rows pass through untouched. -/
theorem executeQuery_row_cap_witness :
    executeQueryModel (List.replicate 1500 (0 : Nat)) =
      (List.replicate 1000 (0 : Nat), some (1500, 1000)) ∧
    executeQueryModel ([0, 1] : List Nat) = (([0, 1] : List Nat), none) := by
  constructor
  · have hl : (List.replicate 1500 (0 : Nat)).length = 1500 :=
      List.length_replicate 1500 0
    have h := (executeQuery_row_cap (List.replicate 1500 (0 : Nat))).1
      (by rw [hl]; norm_num [MAX_ROWS])
    rw [h, hl, List.take_replicate]
    norm_num [MAX_ROWS]
  · exact (executeQuery_row_cap ([0, 1] : List Nat)).2 (by norm_num [MAX_ROWS])

/-- Counterexample to C3 as stated: a statement carrying both a LIMIT and
an OFFSET clause but ending in a semicolon is not returned unmodified. -/
theorem addPagination_semicolon_modifies :
    hasKwNum "LIMIT" "SELECT * FROM t LIMIT 5 OFFSET 2;".data = true ∧
    hasKwNum "OFFSET" "SELECT * FROM t LIMIT 5 OFFSET 2;".data = true ∧
    addPaginationToQuery "SELECT * FROM t LIMIT 5 OFFSET 2;" 10 0 ≠
      "SELECT * FROM t LIMIT 5 OFFSET 2;" := by
  decide

/-- C3 (amended): when both a LIMIT and an OFFSET clause are detected in
the trimmed statement, `addPaginationToQuery` returns the statement with
surrounding whitespace and one trailing semicolon removed but with no
pagination clause appended, for any limit and offset; a trimmed statement
with no trailing semicolon is returned unmodified. -/
theorem addPagination_both_present (sql : String) (limit offset : Nat)
    (hl : hasKwNum "LIMIT" (paginationBase sql) = true)
    (ho : hasKwNum "OFFSET" (paginationBase sql) = true) :
    addPaginationToQuery sql limit offset = ⟨paginationBase sql⟩ := by
  unfold addPaginationToQuery
  simp [hl, ho]

/-- Witness for C3 (amended): explicit caller pagination wins and only
the trailing semicolon and padding disappear. -/
theorem addPagination_both_present_witness :
    addPaginationToQuery " SELECT * FROM t LIMIT 5 OFFSET 2; " 7 3 =
      "SELECT * FROM t LIMIT 5 OFFSET 2" :=
  (addPagination_both_present " SELECT * FROM t LIMIT 5 OFFSET 2; " 7 3
    (by decide) (by decide)).trans (by decide)

/-- Counterexample to C8 as stated: for a statement ending in a
semicolon, the LIMIT clause is not appended to the statement itself but
to its semicolon-stripped form. -/
theorem addPagination_append_counterexample :
    hasKwNum "LIMIT" "SELECT * FROM t;".data = false ∧
    hasKwNum "OFFSET" "SELECT * FROM t;".data = false ∧
    addPaginationToQuery "SELECT * FROM t;" 10 0 ≠
      "SELECT * FROM t;" ++ " LIMIT 10" ∧
    addPaginationToQuery "SELECT * FROM t;" 10 0 = "SELECT * FROM t LIMIT 10" := by
  decide

/-- C8 (amended): when neither a LIMIT nor an OFFSET clause is detected,
`addPaginationToQuery` appends a LIMIT clause — and, exactly when the
offset is positive, an OFFSET clause — to the trimmed, semicolon-stripped
statement; on already-trimmed statements this is appending to the
statement itself, as in the two concrete examples of the spec. -/
theorem addPagination_appends (sql : String) (limit offset : Nat)
    (hl : hasKwNum "LIMIT" (paginationBase sql) = false)
    (ho : hasKwNum "OFFSET" (paginationBase sql) = false) :
    addPaginationToQuery sql limit offset =
      ⟨(paginationBase sql ++ (" LIMIT " ++ toString limit).data) ++
        (if 0 < offset then (" OFFSET " ++ toString offset).data else [])⟩ := by
  unfold addPaginationToQuery
  by_cases hoff : 0 < offset <;> simp [hl, ho, hoff]

/-- Witness for C8 (amended): the two concrete examples of the spec. -/
theorem addPagination_appends_witness :
    addPaginationToQuery "SELECT * FROM t" 10 0 = "SELECT * FROM t LIMIT 10" ∧
    addPaginationToQuery "SELECT * FROM t" 10 20 =
      "SELECT * FROM t LIMIT 10 OFFSET 20" :=
  ⟨(addPagination_appends "SELECT * FROM t" 10 0 (by decide) (by decide)).trans
      (by decide),
   (addPagination_appends "SELECT * FROM t" 10 20 (by decide) (by decide)).trans
      (by decide)⟩

/-- C10: a LIMIT written any way other than the keyword, whitespace and a
decimal number — `LIMIT ALL`, a parameter placeholder — is not detected,
so the statement is treated as having no LIMIT and an additional LIMIT
clause is appended after it (with the OFFSET clause exactly when no
OFFSET was detected and the offset is positive). -/
theorem addPagination_unrecognized_limit (sql : String) (limit offset : Nat)
    (hl : hasKwNum "LIMIT" (paginationBase sql) = false) :
    addPaginationToQuery sql limit offset =
      ⟨(paginationBase sql ++ (" LIMIT " ++ toString limit).data) ++
        (if hasKwNum "OFFSET" (paginationBase sql) = false ∧ 0 < offset then
          (" OFFSET " ++ toString offset).data
        else [])⟩ := by
  unfold addPaginationToQuery
  by_cases ho : hasKwNum "OFFSET" (paginationBase sql) <;>
    by_cases hoff : 0 < offset <;> simp [hl, ho, hoff]

/-- Witness for C10: a statement with `LIMIT ALL` gets a second LIMIT
clause appended after it. -/
theorem addPagination_unrecognized_limit_witness :
    hasKwNum "LIMIT" (paginationBase "SELECT * FROM t LIMIT ALL") = false ∧
    addPaginationToQuery "SELECT * FROM t LIMIT ALL" 10 0 =
      "SELECT * FROM t LIMIT ALL LIMIT 10" :=
  ⟨by decide,
   (addPagination_unrecognized_limit "SELECT * FROM t LIMIT ALL" 10 0
      (by decide)).trans (by decide)⟩

/-- Counterexample to C2 as stated: with the effective limit at the row
cap (1000) and the driver delivering 1001 rows, the underlying query
produced more than `limit` rows and yet `hasMore` is false, because the
executor truncates to `MAX_ROWS` before the query tool compares. -/
theorem handleQuery_hasMore_cap_counterexample :
    (List.replicate 1001 (0 : Nat)).length > 1000 ∧
    (handleQueryPagination "SELECT * FROM t" 1000 0
      (List.replicate 1001 (0 : Nat))).hasMore = false := by
  have hl : (List.replicate 1001 (0 : Nat)).length = 1001 :=
    List.length_replicate 1001 0
  constructor
  · rw [hl]; norm_num
  · simp only [handleQueryPagination]
    rw [executeQueryModel_fst_length, hl]
    norm_num [MAX_ROWS]

/-- C2 (amended): for an effective limit strictly below the executor row
cap, the query tool sends the statement paginated for `limit + 1` rows,
returns at most `limit` rows to the caller, and sets `hasMore` exactly
when the driver produced more than `limit` rows; at `limit = MAX_ROWS`
the executor cap makes `hasMore` always false. -/
theorem handleQuery_pagination_spec {α : Type} (sql : String)
    (limit offset : Nat) (driverRows : List α) (h : limit < MAX_ROWS) :
    (handleQueryPagination sql limit offset driverRows).paginatedSql =
      addPaginationToQuery sql (limit + 1) offset ∧
    (handleQueryPagination sql limit offset driverRows).data.length ≤ limit ∧
    ((handleQueryPagination sql limit offset driverRows).hasMore = true ↔
      driverRows.length > limit) := by
  have hres : (executeQueryModel driverRows).1.length =
      min driverRows.length MAX_ROWS := executeQueryModel_fst_length driverRows
  refine ⟨rfl, ?_, ?_⟩
  · show (if (decide ((executeQueryModel driverRows).1.length > limit)) = true
        then (executeQueryModel driverRows).1.take limit
        else (executeQueryModel driverRows).1).length ≤ limit
    split
    · next hgt => simp [List.length_take]
    · next hle =>
        simp only [decide_eq_true_eq, Nat.not_lt] at hle
        simpa using hle
  · show (decide ((executeQueryModel driverRows).1.length > limit)) = true ↔
      driverRows.length > limit
    rw [decide_eq_true_eq, hres]
    omega

/-- Counterexample to C5 as stated: this statement contains the blocked
keyword DROP as a whole word, yet validation in secure mode allows it,
because normalization strips the line comment before the keyword scan. -/
theorem keyword_in_comment_not_blocked :
    containsWholeWordCI "DROP" "SELECT * FROM t -- DROP TABLE t" = true ∧
    validateQuery "SELECT * FROM t -- DROP TABLE t" false = ⟨true, none⟩ := by
  decide

/-- C5 (amended): for every statement whose normalized text starts with
SELECT or WITH (case-insensitively) and contains a blocked keyword as a
whole word — string literals included — secure-mode validation is Blocked
with a reason naming the first such keyword in list order; matching is
word-boundary so keywords inside longer identifiers do not match, and
keywords only inside comments are removed by normalization before the
scan.  Statements not starting with SELECT or WITH are blocked with the
leading-verb reason instead. -/
theorem validateReadOnlyQuery_blocked_keyword (sql : String) (kw : String)
    (hstart :
      startsWithChars "SELECT".data (upperChars (normalizeQuery sql).data) = true ∨
      startsWithChars "WITH".data (upperChars (normalizeQuery sql).data) = true)
    (hfind : BLOCKED_KEYWORDS.find?
        (fun k => containsWholeWordCI k (normalizeQuery sql)) = some kw) :
    validateReadOnlyQuery sql =
      ⟨false, some ("Blocked keyword detected: " ++ kw ++
        ". Only read-only SELECT queries are allowed")⟩ := by
  have hne : sql ≠ "" := by
    intro he
    subst he
    revert hstart
    decide
  have hlen : ¬ (normalizeQuery sql).length = 0 := by
    intro h0
    have hdata : (normalizeQuery sql).data = [] := by
      have : (normalizeQuery sql).data.length = 0 := h0
      exact List.length_eq_zero.mp this
    rcases hstart with hs | hs <;> rw [hdata] at hs <;> exact absurd hs (by decide)
  have hor : (startsWithChars "SELECT".data (upperChars (normalizeQuery sql).data) ||
      startsWithChars "WITH".data (upperChars (normalizeQuery sql).data)) = true := by
    rcases hstart with hs | hs <;> simp [hs]
  unfold validateReadOnlyQuery
  rw [if_neg hne]
  simp only [hor, hfind, Bool.not_true, Bool.false_eq_true, if_false, if_neg hlen]

/-- Witness for C5 (amended): a stacked DROP after a semicolon is blocked
with the reason naming DROP. -/
theorem validateReadOnlyQuery_blocked_keyword_witness :
    validateReadOnlyQuery "SELECT * FROM t; DROP TABLE t" =
      ⟨false, some "Blocked keyword detected: DROP. Only read-only SELECT queries are allowed"⟩ :=
  (validateReadOnlyQuery_blocked_keyword "SELECT * FROM t; DROP TABLE t" "DROP"
    (Or.inl (by decide)) (by decide)).trans (by decide)

/-- Witness for C2 (amended): three driver rows against limit 2 produce a
two-row page with `hasMore` true. -/
theorem handleQuery_pagination_spec_witness :
    (handleQueryPagination "SELECT * FROM t" 2 0 ([1, 2, 3] : List Nat)).paginatedSql =
      addPaginationToQuery "SELECT * FROM t" 3 0 ∧
    (handleQueryPagination "SELECT * FROM t" 2 0 ([1, 2, 3] : List Nat)).data.length ≤ 2 ∧
    ((handleQueryPagination "SELECT * FROM t" 2 0 ([1, 2, 3] : List Nat)).hasMore = true ↔
      ([1, 2, 3] : List Nat).length > 2) :=
  handleQuery_pagination_spec "SELECT * FROM t" 2 0 ([1, 2, 3] : List Nat)
    (by decide)

theorem hasCloseB_cons (c : Char) (rest : List Char) :
    hasCloseB (c :: rest) = ((c = '*' && headIs '/' rest) || hasCloseB rest) := by
  match c, rest with
  | c, [] => simp [hasCloseB, headIs]
  | c, d :: r =>
    by_cases hc : c = '*'
    · by_cases hd : d = '/'
      · subst hc hd; simp [hasCloseB, headIs]
      · subst hc; simp [hasCloseB, headIs, hd]
    · simp [hasCloseB, headIs, hc]

theorem rlcGo_text_cons_ne (c : Char) (rest : List Char) (h : ¬ c = '-') :
    rlcGo .text (c :: rest) = c :: rlcGo .text rest := by
  match c, rest with
  | c, [] => simp [rlcGo]
  | c, d :: r => simp [rlcGo, h]

theorem rlcGo_text_cons_nd (c : Char) (rest : List Char)
    (h : headIs '-' rest = false) :
    rlcGo .text (c :: rest) = c :: rlcGo .text rest := by
  match c, rest with
  | c, [] => simp [rlcGo]
  | c, d :: r =>
    have hd : ¬ d = '-' := by simpa [headIs] using h
    by_cases hc : c = '-'
    · subst hc; simp [rlcGo, hd]
    · simp [rlcGo, hc]

theorem rlcGo_comment_eol (c : Char) (rest : List Char)
    (h : c = '\n' ∨ c = '\r') :
    rlcGo .comment (c :: rest) = c :: rlcGo .text rest := by
  simp [rlcGo, h]

theorem rlcGo_comment_other (c : Char) (rest : List Char)
    (h : ¬ (c = '\n' ∨ c = '\r')) :
    rlcGo .comment (c :: rest) = rlcGo .comment rest := by
  simp [rlcGo, h]

theorem rbcGo_text_open_close (rest : List Char) (h : hasCloseB rest = true) :
    rbcGo .text ('/' :: '*' :: rest) = ' ' :: rbcGo .comment rest := by
  simp [rbcGo, h]

theorem rbcGo_text_open_noclose (rest : List Char) (h : hasCloseB rest = false) :
    rbcGo .text ('/' :: '*' :: rest) = '/' :: '*' :: rest := by
  simp [rbcGo, h]

theorem rbcGo_text_cons_ne (c : Char) (rest : List Char) (h : ¬ c = '/') :
    rbcGo .text (c :: rest) = c :: rbcGo .text rest := by
  match c, rest with
  | c, [] => simp [rbcGo]
  | c, d :: r => simp [rbcGo, h]

theorem rbcGo_text_cons_ns (c : Char) (rest : List Char)
    (h : headIs '*' rest = false) :
    rbcGo .text (c :: rest) = c :: rbcGo .text rest := by
  match c, rest with
  | c, [] => simp [rbcGo]
  | c, d :: r =>
    have hd : ¬ d = '*' := by simpa [headIs] using h
    by_cases hc : c = '/'
    · subst hc; simp [rbcGo, hd]
    · simp [rbcGo, hc]

theorem rbcGo_comment_close (rest : List Char) :
    rbcGo .comment ('*' :: '/' :: rest) = rbcGo .text rest := rfl

theorem rbcGo_comment_cons_ne (c : Char) (rest : List Char) (h : ¬ c = '*') :
    rbcGo .comment (c :: rest) = rbcGo .comment rest := by
  match c, rest with
  | c, [] => simp [rbcGo]
  | c, d :: r => simp [rbcGo, h]

theorem rbcGo_comment_cons_ns (c : Char) (rest : List Char)
    (h : headIs '/' rest = false) :
    rbcGo .comment (c :: rest) = rbcGo .comment rest := by
  match c, rest with
  | c, [] => simp [rbcGo]
  | c, d :: r =>
    have hd : ¬ d = '/' := by simpa [headIs] using h
    by_cases hc : c = '*'
    · subst hc; simp [rbcGo, hd]
    · simp [rbcGo, hc]

theorem cwsGo_ws_false (c : Char) (rest : List Char) (h : isJsWS c = true) :
    cwsGo false (c :: rest) = ' ' :: cwsGo true rest := by
  simp [cwsGo, h]

theorem cwsGo_ws_true (c : Char) (rest : List Char) (h : isJsWS c = true) :
    cwsGo true (c :: rest) = cwsGo true rest := by
  simp [cwsGo, h]

theorem cwsGo_nonws (b : Bool) (c : Char) (rest : List Char)
    (h : isJsWS c = false) :
    cwsGo b (c :: rest) = c :: cwsGo false rest := by
  simp [cwsGo, h]

theorem rlcGo_text_head (l : List Char) (d : Char)
    (h : (rlcGo .text l).head? = some d) : d = ' ' ∨ l.head? = some d := by
  match l with
  | [] => simp [rlcGo] at h
  | c :: rest =>
    by_cases hc : c = '-'
    · by_cases hr : headIs '-' rest = true
      · subst hc
        match rest, hr with
        | e :: r, hr =>
          have he : e = '-' := by simpa [headIs] using hr
          subst he
          simp [rlcGo] at h
          exact Or.inl h.symm
      · rw [rlcGo_text_cons_nd c rest (by simpa using hr)] at h
        simp at h
        exact Or.inr (by simp [h])
    · rw [rlcGo_text_cons_ne c rest hc] at h
      simp at h
      exact Or.inr (by simp [h])

theorem rlcGo_comment_head (l : List Char) (d : Char)
    (h : (rlcGo .comment l).head? = some d) : d = '\n' ∨ d = '\r' := by
  induction l with
  | nil => simp [rlcGo] at h
  | cons c rest ih =>
    by_cases hc : c = '\n' ∨ c = '\r'
    · rw [rlcGo_comment_eol c rest hc] at h
      simp at h
      exact h ▸ hc
    · rw [rlcGo_comment_other c rest hc] at h
      exact ih h

theorem rbcGo_text_head (l : List Char) (d : Char)
    (h : (rbcGo .text l).head? = some d) : d = ' ' ∨ l.head? = some d := by
  match l with
  | [] => simp [rbcGo] at h
  | c :: rest =>
    by_cases hc : c = '/'
    · by_cases hr : headIs '*' rest = true
      · subst hc
        match rest, hr with
        | e :: r, hr =>
          have he : e = '*' := by simpa [headIs] using hr
          subst he
          by_cases hcl : hasCloseB r = true
          · rw [rbcGo_text_open_close r hcl] at h
            simp at h
            exact Or.inl h.symm
          · rw [rbcGo_text_open_noclose r (by simpa using hcl)] at h
            simp at h
            exact Or.inr (by simp [← h])
      · rw [rbcGo_text_cons_ns c rest (by simpa using hr)] at h
        simp at h
        exact Or.inr (by simp [h])
    · rw [rbcGo_text_cons_ne c rest hc] at h
      simp at h
      exact Or.inr (by simp [h])

theorem cwsGo_false_head (l : List Char) (d : Char)
    (h : (cwsGo false l).head? = some d) : d = ' ' ∨ l.head? = some d := by
  match l with
  | [] => simp [cwsGo] at h
  | c :: rest =>
    by_cases hc : isJsWS c = true
    · rw [cwsGo_ws_false c rest hc] at h
      simp at h
      exact Or.inl h.symm
    · rw [cwsGo_nonws false c rest (by simpa using hc)] at h
      simp at h
      exact Or.inr (by simp [h])

theorem cwsGo_true_headNotWS (l : List Char) :
    headNotWS (cwsGo true l) = true := by
  induction l with
  | nil => simp [cwsGo, headNotWS]
  | cons c rest ih =>
    by_cases hc : isJsWS c = true
    · rw [cwsGo_ws_true c rest hc]
      exact ih
    · rw [cwsGo_nonws true c rest (by simpa using hc)]
      simpa [headNotWS] using hc

theorem noDD_tail (c : Char) (rest : List Char) (h : noDD (c :: rest) = true) :
    noDD rest = true := by
  simp [noDD] at h
  exact h.2

theorem noBlock_tail (c : Char) (rest : List Char)
    (h : noBlock (c :: rest) = true) : noBlock rest = true := by
  simp [noBlock] at h
  exact h.2

theorem onlySingleSpace_tail (c : Char) (rest : List Char)
    (h : onlySingleSpace (c :: rest) = true) : onlySingleSpace rest = true := by
  simp [onlySingleSpace] at h
  exact h.2

theorem hasCloseB_tail_false (c : Char) (rest : List Char)
    (h : hasCloseB (c :: rest) = false) : hasCloseB rest = false := by
  rw [hasCloseB_cons] at h
  simpa using (Bool.or_eq_false_iff.mp h).2

theorem noDD_dropWhile (q : Char → Bool) (l : List Char) (h : noDD l = true) :
    noDD (l.dropWhile q) = true := by
  induction l with
  | nil => simpa using h
  | cons c rest ih =>
    rw [List.dropWhile_cons]
    split
    · exact ih (noDD_tail c rest h)
    · exact h

theorem noBlock_dropWhile (q : Char → Bool) (l : List Char)
    (h : noBlock l = true) : noBlock (l.dropWhile q) = true := by
  induction l with
  | nil => simpa using h
  | cons c rest ih =>
    rw [List.dropWhile_cons]
    split
    · exact ih (noBlock_tail c rest h)
    · exact h

theorem onlySingleSpace_dropWhile (q : Char → Bool) (l : List Char)
    (h : onlySingleSpace l = true) : onlySingleSpace (l.dropWhile q) = true := by
  induction l with
  | nil => simpa using h
  | cons c rest ih =>
    rw [List.dropWhile_cons]
    split
    · exact ih (onlySingleSpace_tail c rest h)
    · exact h

theorem hasCloseB_append_false (l t : List Char)
    (h : hasCloseB (l ++ t) = false) : hasCloseB l = false := by
  induction l with
  | nil => simp [hasCloseB]
  | cons c rest ih =>
    rw [List.cons_append, hasCloseB_cons] at h
    have h1 := Bool.or_eq_false_iff.mp h
    rw [hasCloseB_cons]
    refine Bool.or_eq_false_iff.mpr ⟨?_, ih h1.2⟩
    rcases hr : rest with _ | ⟨d, r⟩
    · simp [headIs]
    · subst hr
      simpa [List.cons_append, headIs] using h1.1

theorem hasCloseB_append_true (l t : List Char) (h : hasCloseB l = true) :
    hasCloseB (l ++ t) = true := by
  cases hca : hasCloseB (l ++ t)
  · rw [hasCloseB_append_false l t hca] at h
    exact absurd h (by simp)
  · rfl

theorem noBlock_cond_mono (c d : Char) (r t : List Char)
    (h : (¬c = '/' ∨ headIs '*' (d :: (r ++ t)) = false) ∨ hasCloseB (r ++ t) = false) :
    (¬c = '/' ∨ headIs '*' (d :: r) = false) ∨ hasCloseB r = false := by
  rcases h with (h | h) | h
  · exact Or.inl (Or.inl h)
  · exact Or.inl (Or.inr (by simpa [headIs] using h))
  · exact Or.inr (hasCloseB_append_false r t h)

theorem noDD_append_left (l t : List Char) (h : noDD (l ++ t) = true) :
    noDD l = true := by
  induction l with
  | nil => simp [noDD]
  | cons c rest ih =>
    rw [List.cons_append, noDD] at h
    simp only [Bool.and_eq_true] at h
    rw [noDD]
    simp only [Bool.and_eq_true]
    refine ⟨?_, ih h.2⟩
    rcases hr : rest with _ | ⟨d, r⟩
    · simp [headIs]
    · subst hr
      simpa [List.cons_append, headIs] using h.1

theorem noBlock_append_left (l t : List Char) (h : noBlock (l ++ t) = true) :
    noBlock l = true := by
  induction l with
  | nil => simp [noBlock]
  | cons c rest ih =>
    rw [List.cons_append, noBlock] at h
    simp only [Bool.and_eq_true] at h
    rw [noBlock]
    simp only [Bool.and_eq_true]
    refine ⟨?_, ih h.2⟩
    rcases hr : rest with _ | ⟨d, r⟩
    · simp [headIs]
    · subst hr
      have h1 : (¬c = '/' ∨ headIs '*' (d :: (r ++ t)) = false) ∨
          hasCloseB (r ++ t) = false := by
        have := h.1
        simp only [List.cons_append, List.tail_cons] at this
        simpa using this
      simp only [List.tail_cons]
      simpa using noBlock_cond_mono c d r t h1

theorem onlySingleSpace_append_left (l t : List Char)
    (h : onlySingleSpace (l ++ t) = true) : onlySingleSpace l = true := by
  induction l with
  | nil => simp [onlySingleSpace]
  | cons c rest ih =>
    rw [List.cons_append, onlySingleSpace] at h
    simp only [Bool.and_eq_true] at h
    rw [onlySingleSpace]
    simp only [Bool.and_eq_true]
    refine ⟨?_, ih h.2⟩
    rcases hr : rest with _ | ⟨d, r⟩
    · have h1 := h.1
      cases hw : isJsWS c <;> cases hsp : decide (c = ' ') <;>
        simp_all
    · subst hr
      simpa [List.cons_append, headIs] using h.1

theorem rlcGo_text_cons_of (c : Char) (rest : List Char)
    (h : ∀ rest2 : List Char, c = '-' → rest = '-' :: rest2 → False) :
    rlcGo .text (c :: rest) = c :: rlcGo .text rest := by
  by_cases hc : c = '-'
  · refine rlcGo_text_cons_nd c rest ?_
    rcases hr : rest with _ | ⟨d, r⟩
    · simp [headIs]
    · by_cases hd : d = '-'
      · exact ((h r hc (by rw [hr, hd])).elim)
      · simp [headIs, hd]
  · exact rlcGo_text_cons_ne c rest hc

theorem noDD_rlcGo (mode : LineMode) (l : List Char) :
    noDD (rlcGo mode l) = true := by
  induction mode, l using rlcGo.induct with
  | case1 mode => simp [rlcGo, noDD]
  | case2 rest ih =>
      have hstep : rlcGo .text ('-' :: '-' :: rest) = ' ' :: rlcGo .comment rest := rfl
      rw [hstep, noDD]
      simp only [Bool.and_eq_true]
      refine ⟨by simp [headIs], ih⟩
  | case3 c rest hside ih =>
      rw [rlcGo_text_cons_of c rest hside, noDD]
      simp only [Bool.and_eq_true]
      refine ⟨?_, ih⟩
      by_cases hc : c = '-'
      · have hnd : headIs '-' (rlcGo .text rest) = false := by
          cases hh : (rlcGo .text rest).head? with
          | none => simp [headIs, hh]
          | some d =>
            by_cases hd : d = '-'
            · subst hd
              rcases rlcGo_text_head rest '-' hh with h1 | h1
              · exact absurd h1 (by decide)
              · rcases hr : rest with _ | ⟨e, r⟩
                · rw [hr] at h1; simp at h1
                · rw [hr] at h1
                  simp at h1
                  rw [hr] at hside
                  exact (hside r hc (by rw [h1])).elim
            · simp [headIs, hh, hd]
        simp [hc, hnd]
      · simp [hc]
  | case4 c rest hcr ih =>
      rw [rlcGo_comment_eol c rest hcr, noDD]
      simp only [Bool.and_eq_true]
      refine ⟨?_, ih⟩
      rcases hcr with hcr | hcr <;> subst hcr <;> simp
  | case5 c rest hcr ih =>
      rw [rlcGo_comment_other c rest hcr]
      exact ih

theorem noBlock_of_noClose (l : List Char) (h : hasCloseB l = false) :
    noBlock l = true := by
  induction l with
  | nil => simp [noBlock]
  | cons c rest ih =>
    have ht : hasCloseB rest = false := hasCloseB_tail_false c rest h
    rw [noBlock]
    simp only [Bool.and_eq_true]
    refine ⟨?_, ih ht⟩
    have ht2 : hasCloseB rest.tail = false := by
      rcases hr : rest with _ | ⟨d, r⟩
      · simp [hasCloseB]
      · rw [hr] at ht
        exact hasCloseB_tail_false d r ht
    simp [ht2]

theorem rlcGo_text_id (l : List Char) (h : noDD l = true) :
    rlcGo .text l = l := by
  induction l with
  | nil => rfl
  | cons c rest ih =>
    rw [noDD] at h
    simp only [Bool.and_eq_true] at h
    have h1 := h.1
    have h2 := h.2
    have hstep : rlcGo .text (c :: rest) = c :: rlcGo .text rest := by
      by_cases hc : c = '-'
      · refine rlcGo_text_cons_nd c rest ?_
        cases hh : headIs '-' rest
        · rfl
        · rw [hc, hh] at h1
          simp at h1
      · exact rlcGo_text_cons_ne c rest hc
    rw [hstep, ih h2]

theorem rbcGo_text_id (l : List Char) (h : noBlock l = true) :
    rbcGo .text l = l := by
  induction l with
  | nil => rfl
  | cons c rest ih =>
    rw [noBlock] at h
    simp only [Bool.and_eq_true] at h
    have h1 := h.1
    have h2 := h.2
    by_cases hc : c = '/'
    · subst hc
      rcases hr : rest with _ | ⟨d, r⟩
      · rfl
      · subst hr
        by_cases hd : d = '*'
        · subst hd
          have hcl : hasCloseB r = false := by
            simpa [headIs] using h1
          rw [rbcGo_text_open_noclose r hcl]
        · rw [rbcGo_text_cons_ns '/' (d :: r) (by simp [headIs, hd]), ih h2]
    · rw [rbcGo_text_cons_ne c rest hc, ih h2]

theorem rbcGo_text_cons_of (c : Char) (rest : List Char)
    (h : ∀ rest2 : List Char, c = '/' → rest = '*' :: rest2 → False) :
    rbcGo .text (c :: rest) = c :: rbcGo .text rest := by
  by_cases hc : c = '/'
  · refine rbcGo_text_cons_ns c rest ?_
    rcases hr : rest with _ | ⟨d, r⟩
    · simp [headIs]
    · by_cases hd : d = '*'
      · exact ((h r hc (by rw [hr, hd])).elim)
      · simp [headIs, hd]
  · exact rbcGo_text_cons_ne c rest hc

theorem rbcGo_comment_cons_of (c : Char) (rest : List Char)
    (h : ∀ rest2 : List Char, c = '*' → rest = '/' :: rest2 → False) :
    rbcGo .comment (c :: rest) = rbcGo .comment rest := by
  by_cases hc : c = '*'
  · refine rbcGo_comment_cons_ns c rest ?_
    rcases hr : rest with _ | ⟨d, r⟩
    · simp [headIs]
    · by_cases hd : d = '/'
      · exact ((h r hc (by rw [hr, hd])).elim)
      · simp [headIs, hd]
  · exact rbcGo_comment_cons_ne c rest hc

theorem noDD_rbcGo (mode : BlockMode) (l : List Char) (h : noDD l = true) :
    noDD (rbcGo mode l) = true := by
  induction mode, l using rbcGo.induct with
  | case1 mode => simpa [rbcGo] using h
  | case2 rest hcl ih =>
      rw [rbcGo_text_open_close rest hcl, noDD]
      simp only [Bool.and_eq_true]
      exact ⟨by simp, ih (noDD_tail _ _ (noDD_tail _ _ h))⟩
  | case3 rest hcl =>
      rw [rbcGo_text_open_noclose rest (by simpa using hcl)]
      exact h
  | case4 c rest hside ih =>
      rw [rbcGo_text_cons_of c rest hside, noDD]
      simp only [Bool.and_eq_true]
      refine ⟨?_, ih (noDD_tail _ _ h)⟩
      by_cases hc : c = '-'
      · have hnd : headIs '-' (rbcGo .text rest) = false := by
          cases hh : (rbcGo .text rest).head? with
          | none => simp [headIs, hh]
          | some d =>
            by_cases hd : d = '-'
            · subst hd
              rcases rbcGo_text_head rest '-' hh with h1 | h1
              · exact absurd h1 (by decide)
              · rw [noDD] at h
                simp only [Bool.and_eq_true] at h
                have hcond := h.1
                rw [hc] at hcond
                rw [show headIs '-' rest = true from by simp [headIs, h1]] at hcond
                simp at hcond
            · simp [headIs, hh, hd]
        simp [hnd]
      · simp [hc]
  | case5 rest ih =>
      rw [rbcGo_comment_close]
      exact ih (noDD_tail _ _ (noDD_tail _ _ h))
  | case6 c rest hside ih =>
      rw [rbcGo_comment_cons_of c rest hside]
      exact ih (noDD_tail _ _ h)

theorem noBlock_rbcGo (mode : BlockMode) (l : List Char) :
    noBlock (rbcGo mode l) = true := by
  induction mode, l using rbcGo.induct with
  | case1 mode => simp [rbcGo, noBlock]
  | case2 rest hcl ih =>
      rw [rbcGo_text_open_close rest hcl, noBlock]
      simp only [Bool.and_eq_true]
      exact ⟨by simp, ih⟩
  | case3 rest hcl =>
      have hcl2 : hasCloseB rest = false := by simpa using hcl
      rw [rbcGo_text_open_noclose rest hcl2, noBlock]
      simp only [Bool.and_eq_true]
      constructor
      · simp [headIs, hcl2]
      · rw [noBlock]
        simp only [Bool.and_eq_true]
        exact ⟨by simp, noBlock_of_noClose rest hcl2⟩
  | case4 c rest hside ih =>
      rw [rbcGo_text_cons_of c rest hside, noBlock]
      simp only [Bool.and_eq_true]
      refine ⟨?_, ih⟩
      by_cases hc : c = '/'
      · have hns : headIs '*' (rbcGo .text rest) = false := by
          cases hh : (rbcGo .text rest).head? with
          | none => simp [headIs, hh]
          | some d =>
            by_cases hd : d = '*'
            · subst hd
              rcases rbcGo_text_head rest '*' hh with h1 | h1
              · exact absurd h1 (by decide)
              · rcases hr : rest with _ | ⟨e, r⟩
                · rw [hr] at h1; simp at h1
                · rw [hr] at h1
                  simp at h1
                  rw [hr] at hside
                  exact ((hside r hc (by rw [h1])).elim)
            · simp [headIs, hh, hd]
        simp [hns]
      · simp [hc]
  | case5 rest ih =>
      rw [rbcGo_comment_close]
      exact ih
  | case6 c rest hside ih =>
      rw [rbcGo_comment_cons_of c rest hside]
      exact ih

theorem noDD_cwsGo (l : List Char) (h : noDD l = true) :
    ∀ b : Bool, noDD (cwsGo b l) = true := by
  induction l with
  | nil => intro b; simp [cwsGo, noDD]
  | cons c rest ih =>
    intro b
    have h2 : noDD rest = true := noDD_tail c rest h
    by_cases hw : isJsWS c = true
    · cases b
      · rw [cwsGo_ws_false c rest hw, noDD]
        simp only [Bool.and_eq_true]
        exact ⟨by simp, ih h2 true⟩
      · rw [cwsGo_ws_true c rest hw]
        exact ih h2 true
    · rw [cwsGo_nonws b c rest (by simpa using hw), noDD]
      simp only [Bool.and_eq_true]
      refine ⟨?_, ih h2 false⟩
      by_cases hc : c = '-'
      · have hnd : headIs '-' (cwsGo false rest) = false := by
          cases hh : (cwsGo false rest).head? with
          | none => simp [headIs, hh]
          | some d =>
            by_cases hd : d = '-'
            · subst hd
              rcases cwsGo_false_head rest '-' hh with h1 | h1
              · exact absurd h1 (by decide)
              · rw [noDD] at h
                simp only [Bool.and_eq_true] at h
                have hcond := h.1
                rw [hc] at hcond
                rw [show headIs '-' rest = true from by simp [headIs, h1]] at hcond
                simp at hcond
            · simp [headIs, hh, hd]
        simp [hnd]
      · simp [hc]

theorem hasCloseB_cwsGo_false (l : List Char) (h : hasCloseB l = false) :
    ∀ b : Bool, hasCloseB (cwsGo b l) = false := by
  induction l with
  | nil => intro b; simp [cwsGo, hasCloseB]
  | cons c rest ih =>
    intro b
    have h2 : hasCloseB rest = false := hasCloseB_tail_false c rest h
    by_cases hw : isJsWS c = true
    · cases b
      · rw [cwsGo_ws_false c rest hw, hasCloseB_cons]
        simp only [Bool.or_eq_false_iff]
        exact ⟨by simp, ih h2 true⟩
      · rw [cwsGo_ws_true c rest hw]
        exact ih h2 true
    · rw [cwsGo_nonws b c rest (by simpa using hw), hasCloseB_cons]
      simp only [Bool.or_eq_false_iff]
      refine ⟨?_, ih h2 false⟩
      by_cases hc : c = '*'
      · have hns : headIs '/' (cwsGo false rest) = false := by
          cases hh : (cwsGo false rest).head? with
          | none => simp [headIs, hh]
          | some d =>
            by_cases hd : d = '/'
            · subst hd
              rcases cwsGo_false_head rest '/' hh with h1 | h1
              · exact absurd h1 (by decide)
              · rw [hasCloseB_cons] at h
                rw [hc] at h
                rw [show headIs '/' rest = true from by simp [headIs, h1]] at h
                simp at h
            · simp [headIs, hh, hd]
        simp [hns]
      · simp [hc]

theorem noBlock_cwsGo (l : List Char) (h : noBlock l = true) :
    ∀ b : Bool, noBlock (cwsGo b l) = true := by
  induction l with
  | nil => intro b; simp [cwsGo, noBlock]
  | cons c rest ih =>
    intro b
    have h2 : noBlock rest = true := noBlock_tail c rest h
    by_cases hw : isJsWS c = true
    · cases b
      · rw [cwsGo_ws_false c rest hw, noBlock]
        simp only [Bool.and_eq_true]
        exact ⟨by simp, ih h2 true⟩
      · rw [cwsGo_ws_true c rest hw]
        exact ih h2 true
    · rw [cwsGo_nonws b c rest (by simpa using hw), noBlock]
      simp only [Bool.and_eq_true]
      refine ⟨?_, ih h2 false⟩
      by_cases hc : c = '/'
      · cases hh : (cwsGo false rest).head? with
        | none => simp [headIs, hh]
        | some d =>
          by_cases hd : d = '*'
          · subst hd
            rcases cwsGo_false_head rest '*' hh with h1 | h1
            · exact absurd h1 (by decide)
            · rcases hr : rest with _ | ⟨e, r⟩
              · rw [hr] at h1; simp at h1
              · rw [hr] at h1
                simp at h1
                subst h1
                have hx : noBlock (c :: ('*' :: r)) = true := by
                  rw [← hr]; exact h
                rw [noBlock] at hx
                simp only [Bool.and_eq_true] at hx
                have hcond := hx.1
                rw [hc] at hcond
                have hcl : hasCloseB r = false := by
                  simpa [headIs] using hcond
                rw [cwsGo_nonws false '*' r (by decide)]
                simp [headIs, hasCloseB_cwsGo_false r hcl false]
          · simp [headIs, hh, hd]
      · simp [hc]

theorem onlySingleSpace_cwsGo (l : List Char) :
    ∀ b : Bool, onlySingleSpace (cwsGo b l) = true := by
  induction l with
  | nil => intro b; simp [cwsGo, onlySingleSpace]
  | cons c rest ih =>
    intro b
    by_cases hw : isJsWS c = true
    · cases b
      · rw [cwsGo_ws_false c rest hw, onlySingleSpace]
        simp only [Bool.and_eq_true]
        refine ⟨?_, ih true⟩
        have hhd := cwsGo_true_headNotWS rest
        simp only [headNotWS, Bool.not_eq_true'] at hhd
        simp [hhd]
      · rw [cwsGo_ws_true c rest hw]
        exact ih true
    · rw [cwsGo_nonws b c rest (by simpa using hw), onlySingleSpace]
      simp only [Bool.and_eq_true]
      refine ⟨?_, ih false⟩
      simp [hw]

theorem cwsGo_id (l : List Char) (h : onlySingleSpace l = true) :
    cwsGo false l = l ∧ (headNotWS l = true → cwsGo true l = l) := by
  induction l with
  | nil => exact ⟨rfl, fun _ => rfl⟩
  | cons c rest ih =>
    rw [onlySingleSpace] at h
    simp only [Bool.and_eq_true] at h
    obtain ⟨h1, h2⟩ := h
    have ihh := ih h2
    constructor
    · by_cases hw : isJsWS c = true
      · have hsp : c = ' ' ∧ headNotWS rest = true := by
          rw [hw] at h1
          simpa [headNotWS] using h1
        rw [cwsGo_ws_false c rest hw, ihh.2 hsp.2, hsp.1]
      · rw [cwsGo_nonws false c rest (by simpa using hw), ihh.1]
    · intro hh
      have hw : isJsWS c = false := by simpa [headNotWS] using hh
      rw [cwsGo_nonws true c rest hw, ihh.1]

theorem trimRightWS_decomp (l : List Char) :
    trimRightWS l ++ (l.reverse.takeWhile isJsWS).reverse = l := by
  unfold trimRightWS
  rw [← List.reverse_append, List.takeWhile_append_dropWhile, List.reverse_reverse]

theorem noDD_trimRightWS (l : List Char) (h : noDD l = true) :
    noDD (trimRightWS l) = true := by
  refine noDD_append_left (trimRightWS l) ((l.reverse.takeWhile isJsWS).reverse) ?_
  rw [trimRightWS_decomp]
  exact h

theorem noBlock_trimRightWS (l : List Char) (h : noBlock l = true) :
    noBlock (trimRightWS l) = true := by
  refine noBlock_append_left (trimRightWS l) ((l.reverse.takeWhile isJsWS).reverse) ?_
  rw [trimRightWS_decomp]
  exact h

theorem onlySingleSpace_trimRightWS (l : List Char)
    (h : onlySingleSpace l = true) : onlySingleSpace (trimRightWS l) = true := by
  refine onlySingleSpace_append_left (trimRightWS l)
    ((l.reverse.takeWhile isJsWS).reverse) ?_
  rw [trimRightWS_decomp]
  exact h

theorem noDD_trimWS (l : List Char) (h : noDD l = true) :
    noDD (trimWS l) = true := by
  unfold trimWS trimLeftWS
  exact noDD_trimRightWS _ (noDD_dropWhile isJsWS l h)

theorem noBlock_trimWS (l : List Char) (h : noBlock l = true) :
    noBlock (trimWS l) = true := by
  unfold trimWS trimLeftWS
  exact noBlock_trimRightWS _ (noBlock_dropWhile isJsWS l h)

theorem onlySingleSpace_trimWS (l : List Char) (h : onlySingleSpace l = true) :
    onlySingleSpace (trimWS l) = true := by
  unfold trimWS trimLeftWS
  exact onlySingleSpace_trimRightWS _ (onlySingleSpace_dropWhile isJsWS l h)

theorem headNotWS_dropWhile (l : List Char) :
    headNotWS (l.dropWhile isJsWS) = true := by
  induction l with
  | nil => simp [headNotWS]
  | cons c rest ih =>
    rw [List.dropWhile_cons]
    split
    · exact ih
    · next hcond => simpa [headNotWS] using hcond

theorem headNotWS_trimRightWS (l : List Char) (h : headNotWS l = true) :
    headNotWS (trimRightWS l) = true := by
  cases ht : trimRightWS l with
  | nil => simp [headNotWS]
  | cons c r =>
    have hd := trimRightWS_decomp l
    rw [ht] at hd
    have h2 : isJsWS c = false := by
      rw [← hd] at h
      simpa [headNotWS, List.cons_append] using h
    simpa [headNotWS] using h2

theorem headNotWS_trimWS (l : List Char) : headNotWS (trimWS l) = true := by
  unfold trimWS trimLeftWS
  exact headNotWS_trimRightWS _ (headNotWS_dropWhile l)

theorem trimWS_reverse_headNotWS (l : List Char) :
    headNotWS (trimWS l).reverse = true := by
  unfold trimWS trimRightWS
  rw [List.reverse_reverse]
  exact headNotWS_dropWhile _

theorem trimWS_id (l : List Char) (hh : headNotWS l = true)
    (hl : headNotWS l.reverse = true) : trimWS l = l := by
  unfold trimWS trimLeftWS trimRightWS
  have h1 : l.dropWhile isJsWS = l := by
    cases l with
    | nil => rfl
    | cons c r =>
      rw [List.dropWhile_cons, if_neg]
      simpa [headNotWS] using hh
  rw [h1]
  have h2 : l.reverse.dropWhile isJsWS = l.reverse := by
    cases hr : l.reverse with
    | nil => rfl
    | cons c r =>
      rw [List.dropWhile_cons, if_neg]
      rw [hr] at hl
      simpa [headNotWS] using hl
  rw [h2, List.reverse_reverse]

theorem normalizeChars_idem (l : List Char) :
    normalizeChars (normalizeChars l) = normalizeChars l := by
  have hDD : noDD (normalizeChars l) = true := by
    unfold normalizeChars collapseWS removeBlockComments removeLineComments
    exact noDD_trimWS _ (noDD_cwsGo _ (noDD_rbcGo .text _ (noDD_rlcGo .text l)) false)
  have hBlock : noBlock (normalizeChars l) = true := by
    unfold normalizeChars collapseWS removeBlockComments removeLineComments
    exact noBlock_trimWS _ (noBlock_cwsGo _ (noBlock_rbcGo .text _) false)
  have hOSS : onlySingleSpace (normalizeChars l) = true := by
    unfold normalizeChars collapseWS
    exact onlySingleSpace_trimWS _ (onlySingleSpace_cwsGo _ false)
  have hHead : headNotWS (normalizeChars l) = true := headNotWS_trimWS _
  have hLast : headNotWS (normalizeChars l).reverse = true :=
    trimWS_reverse_headNotWS _
  calc normalizeChars (normalizeChars l)
      = trimWS (cwsGo false (rbcGo .text (rlcGo .text (normalizeChars l)))) := rfl
    _ = trimWS (cwsGo false (rbcGo .text (normalizeChars l))) := by
        rw [rlcGo_text_id _ hDD]
    _ = trimWS (cwsGo false (normalizeChars l)) := by
        rw [rbcGo_text_id _ hBlock]
    _ = trimWS (normalizeChars l) := by
        rw [(cwsGo_id _ hOSS).1]
    _ = normalizeChars l := trimWS_id _ hHead hLast

/-- C9: the normalizer is idempotent: removing comments, collapsing
whitespace runs and trimming a second time changes nothing. -/
theorem normalizeQuery_idempotent (s : String) :
    normalizeQuery (normalizeQuery s) = normalizeQuery s :=
  congrArg String.mk (normalizeChars_idem s.data)

end MPS
